import Mathlib

/-!
Verification of the BenchBot add-on manager (`addons/manager.py`).

The Python module is a sequential state machine over the filesystem, a
persisted JSON state file, and external processes (`git`, `wget`, `unzip`).
We embed it shallowly:

* the mutable world (owner-level directories, per-add-on repository
  directories, the persisted state file, and a log of downloads performed)
  is an explicit `World` value threaded through every operation;
* the immutable external universe (what a `git clone` of a URL produces,
  where `origin/HEAD` points after a fetch, which files a working copy has
  at a given commit, whether a `wget` succeeds) is an oracle `Univ`;
* Python exceptions become an explicit `Err` sum; an operation returns the
  world it leaves behind together with `Except Err result`, since
  filesystem mutations persist across a raised exception;
* Python `dict`s (the JSON state and its records with optional keys) become
  association lists and a record of `Option` fields;
* the unbounded recursion of `install_addon` over the `.dependencies` file
  is given explicit fuel; running out of fuel is an error, so theorems
  conditioned on a successful run are faithful to every terminating Python
  execution.
-/

namespace Benchbot

/-- A persisted per-add-on record: a JSON object with optional keys
`hash`, `deps`, `remote`, `remote_target` (see `dump_state`'s comment in
the source). -/
structure Record where
  hash : Option String := none
  deps : Option (List String) := none
  remote : Option String := none
  remote_target : Option String := none
deriving Repr, DecidableEq

/-- The descriptor files a working copy of an add-on repository carries:
the optional `.remote` file (one line `"<url> <target>"`) and the optional
`.dependencies` file (one add-on reference per line). -/
structure RepoFiles where
  remoteFile : Option (String × String) := none
  depsFile : Option (List String) := none
deriving Repr, DecidableEq

/-- An on-disk add-on directory: `git` is `some (origin, head)` when the
directory holds a clone with remote `origin` currently at commit `head`,
`none` when no `.git` exists; `files` are the working copy's descriptor
files; `targets` lists the extracted remote-content paths present. -/
structure RepoDir where
  git : Option (String × String) := none
  files : RepoFiles := {}
  targets : List String := []
deriving Repr, DecidableEq

/-- The immutable external universe: what cloning a URL yields (`none` when
the clone process fails), where the remote default branch points, the
descriptor files of a working copy of `url` at a commit, and whether
downloading a URL succeeds. -/
structure Univ where
  cloneHead : String → Option String
  originHead : String → String
  filesAt : String → String → RepoFiles
  wgetOk : String → Bool

/-- The mutable world: owner-level directories under the install root,
add-on directories keyed by `(owner, repo)`, the persisted state file
(association list keyed by canonical name, in insertion order like a
Python dict), and an event log of the archive URLs passed to `wget`. -/
structure World where
  ownerDirs : List String := []
  repoDirs : List ((String × String) × RepoDir) := []
  state : List (String × Record) := []
  downloads : List String := []
deriving Repr, DecidableEq

/-- Python exceptions raised by the manager. -/
inductive Err where
  /-- `re.search` found no match in `_parse_name` (an `AttributeError`). -/
  | parseError (name : String)
  /-- `RuntimeError`: `git clone` exited non-zero (`install_addon`). -/
  | cloneError (name url : String)
  /-- `KeyError`: a dict lookup on a missing key. -/
  | keyError (name : String)
  /-- `RuntimeError`: removal of an add-on whose directory is absent. -/
  | notInstalled (name : String)
  /-- Recursion fuel exhausted (Python would recurse unboundedly). -/
  | fuelOut
deriving Repr, DecidableEq

/-! ### Association-list helpers (Python `dict` semantics) -/

/-- `d.get(k)`: first value stored at key `k`, if any. -/
def lookupA {κ α : Type} [DecidableEq κ] : List (κ × α) → κ → Option α
  | [], _ => none
  | p :: l, k => if p.1 = k then some p.2 else lookupA l k

/-- Update the value at key `k` in place, keeping insertion order
(`d[k] = f(d[k])` on an existing key). -/
def updateAssoc {κ α : Type} [DecidableEq κ] (l : List (κ × α)) (k : κ)
    (f : α → α) : List (κ × α) :=
  l.map (fun p => if p.1 = k then (p.1, f p.2) else p)

/-- `d[k] = v`: replace in place when the key exists, append otherwise. -/
def setAssoc {κ α : Type} [DecidableEq κ] (l : List (κ × α)) (k : κ)
    (v : α) : List (κ × α) :=
  if (lookupA l k).isSome then updateAssoc l k (fun _ => v) else l ++ [(k, v)]

/-- `del d[k]` (all occurrences of the key go; a dict has just one). -/
def delAssoc {κ α : Type} [DecidableEq κ] : List (κ × α) → κ → List (κ × α)
  | [], _ => []
  | p :: l, k => if p.1 = k then delAssoc l k else p :: delAssoc l k

/-! ### Name resolution (`_parse_name`) -/

/-- `",".join(l)` on the character level. -/
def commaJoin (l : List String) : String :=
  String.mk ([','].intercalate (l.map String.data))

/-- `s.split(',')` on the character level. -/
def commaSplit (s : String) : List String :=
  (s.data.splitOn ',').map String.mk

/-- `_parse_name`: synthesize a URL for a bare `owner/repo` reference, then
take the last two `/`-separated segments (the regex `[^/]*/[^/]*$`; `none`
models the `AttributeError` when the regex finds no match, i.e. when the
URL contains no slash). -/
def _parse_name (name : String) :
    Option (String × String × String × String) :=
  let url := if name.startsWith "http" then name
    else "https://github.com/" ++ name
  match (url.data.splitOn '/').reverse with
  | r :: u :: _ =>
    some (url, String.mk u, String.mk r, String.mk u ++ "/" ++ String.mk r)
  | _ => none

/-! ### State store (`get_state` / `dump_state`) -/

/-- `get_state`: read the persisted state file (the model keeps the file's
current content in the world; an absent file reads as the empty dict). -/
def get_state (w : World) : List (String × Record) := w.state

/-- `dump_state`: rewrite the whole state file. -/
def dump_state (w : World) (s : List (String × Record)) : World :=
  { w with state := s }

/-! ### Filesystem helpers -/

/-- Does `<installRoot>/<u>/<r>` exist, and with which contents? -/
def lookupDir (w : World) (u r : String) : Option RepoDir :=
  lookupA w.repoDirs (u, r)

/-- Overwrite the contents of an existing add-on directory. -/
def setDir (w : World) (u r : String) (d : RepoDir) : World :=
  { w with repoDirs := setAssoc w.repoDirs (u, r) d }

/-- `os.makedirs(install_path)` when the directory is absent (creates the
owner-level parent as well); no effect when it already exists. -/
def ensurePath (w : World) (u r : String) : World :=
  if (lookupDir w u r).isSome then w
  else { w with
    ownerDirs := if u ∈ w.ownerDirs then w.ownerDirs else w.ownerDirs ++ [u],
    repoDirs := w.repoDirs ++ [((u, r), {})] }

/-- `os.listdir(<installRoot>/<u>)`: the repository directories currently
under the owner-level directory `u`. -/
def listdirOwner (w : World) (u : String) : List String :=
  (w.repoDirs.filter (fun p => p.1.1 = u)).map (fun p => p.1.2)

/-! ### `install_addon`, phase by phase -/

/-- Lines 113–140 of `install_addon`: clone when no `.git` exists (raising
on a failed clone), otherwise fetch and, when HEAD differs from
`origin/HEAD`, hard-reset to it. Returns `current`, the output of
`git rev-parse HEAD` captured *before* any reset — the upgrade branch never
re-reads it afterwards. -/
def syncRepo (U : Univ) (w : World) (u r name url : String) :
    World × Except Err String :=
  match lookupDir w u r with
  | none => (w, .error (.notInstalled name))
  | some d =>
    match d.git with
    | none =>
      match U.cloneHead url with
      | none => (w, .error (.cloneError name url))
      | some sha =>
        (setDir w u r { d with git := some (url, sha),
                               files := U.filesAt url sha }, .ok sha)
    | some (origin, head) =>
      let latest := U.originHead origin
      if head = latest then (w, .ok head)
      else
        (setDir w u r { d with git := some (origin, latest),
                               files := U.filesAt origin latest }, .ok head)

/-- Lines 142–171 of `install_addon`: when a `.remote` descriptor exists,
read `(remote, target)` from it, look up `state[name]` (a `KeyError` when
the record is missing), and unless the record already stores exactly this
pair, run `wget` (logged in `downloads`); on download success replace any
existing target, extract, and persist the updated `remote`/`remote_target`
fields. A failed download is logged and non-fatal. -/
def fetchRemote (U : Univ) (w : World) (u r name : String) :
    World × Except Err Unit :=
  match lookupDir w u r with
  | none => (w, .ok ())
  | some d =>
    match d.files.remoteFile with
    | none => (w, .ok ())
    | some (remote, target) =>
      match lookupA (get_state w) name with
      | none => (w, .error (.keyError name))
      | some rec =>
        if rec.remote ≠ some remote ∨ rec.remote_target ≠ some target then
          let w1 := { w with downloads := w.downloads ++ [remote] }
          if U.wgetOk remote then
            let targets1 := if target ∈ d.targets
              then d.targets.erase target else d.targets
            let w2 := setDir w1 u r { d with targets := targets1 ++ [target] }
            (dump_state w2 (updateAssoc (get_state w2) name
              (fun rec => { rec with remote := some remote,
                                     remote_target := some target })), .ok ())
          else (w1, .ok ())
        else (w, .ok ())

/-- Lines 173–179: the `.dependencies` file's lines; an absent file means
no dependencies. -/
def depsOf (w : World) (u r : String) : List String :=
  match lookupDir w u r with
  | some d => d.files.depsFile.getD []
  | none => []

/-- Lines 184–190 of `install_addon`: re-read the state, create the record
when absent, overwrite its `hash` and `deps` fields, and dump. -/
def finalizeState (w : World) (name current : String)
    (deps : List String) : World :=
  let st := get_state w
  let st := if (lookupA st name).isSome then st
    else st ++ [(name, ({} : Record))]
  dump_state w (updateAssoc st name
    (fun rec => { rec with hash := some current, deps := some deps }))

/-- A loop `for d in list: ret.append(f(d))` over a world-threading,
exception-throwing body: an exception aborts the remaining iterations. -/
def runList {α : Type} (f : World → String → World × Except Err α) :
    World → List String → World × Except Err (List α)
  | w, [] => (w, .ok [])
  | w, d :: ds =>
    match f w d with
    | (w1, .error e) => (w1, .error e)
    | (w1, .ok x) =>
      match runList f w1 ds with
      | (w2, .error e) => (w2, .error e)
      | (w2, .ok xs) => (w2, .ok (x :: xs))

/-- `install_addon`: parse the name, ensure the install path exists,
synchronize the repository, fetch remote content, recursively install each
declared dependency, then persist `hash` and `deps`. Returns its own
canonical name followed by the dependencies' returned lists in order.
`fuel` bounds the recursion depth (Python has no bound). -/
def install_addon (U : Univ) : Nat → World → String →
    World × Except Err (List String)
  | 0, w, _ => (w, .error .fuelOut)
  | fuel + 1, w, name0 =>
    match _parse_name name0 with
    | none => (w, .error (.parseError name0))
    | some (url, u, r, name) =>
      let w1 := ensurePath w u r
      match syncRepo U w1 u r name url with
      | (w2, .error e) => (w2, .error e)
      | (w2, .ok current) =>
        match fetchRemote U w2 u r name with
        | (w3, .error e) => (w3, .error e)
        | (w3, .ok _) =>
          let deps := depsOf w3 u r
          match runList (install_addon U fuel) w3 deps with
          | (w4, .error e) => (w4, .error e)
          | (w4, .ok rets) =>
            (finalizeState w4 name current deps, .ok (name :: rets.flatten))

/-- The loop `for d in deps: ret.extend(install_addon(d))`, collecting each
dependency's returned list. -/
def installList (U : Univ) (fuel : Nat) :
    World → List String → World × Except Err (List (List String)) :=
  runList (install_addon U fuel)

/-- `install_addons`: split the comma-separated list and install each in
turn, concatenating the returned name lists (`remove_extras` is accepted
but acted on by nothing). -/
def install_addons (U : Univ) (fuel : Nat) (w : World) (string : String)
    (remove_extras : Bool) : World × Except Err (List String) :=
  match installList U fuel w (commaSplit string) with
  | (w', .error e) => (w', .error e)
  | (w', .ok ls) => (w', .ok ls.flatten)

/-! ### Removal -/

/-- `remove_addon`: raise when the directory is absent; otherwise `rmtree`
the directory, remove the owner-level parent if it is now empty, and delete
the state record (a `KeyError` — after the directory is already gone — when
no record exists). -/
def remove_addon (w : World) (name0 : String) : World × Except Err Unit :=
  match _parse_name name0 with
  | none => (w, .error (.parseError name0))
  | some (_url, u, r, name) =>
    match lookupDir w u r with
    | none => (w, .error (.notInstalled name))
    | some _ =>
      let w1 := { w with repoDirs := delAssoc w.repoDirs (u, r) }
      let w2 := if u ∈ w1.ownerDirs ∧ listdirOwner w1 u = []
        then { w1 with ownerDirs := w1.ownerDirs.erase u } else w1
      match lookupA (get_state w2) name with
      | none => (w2, .error (.keyError name))
      | some _ => (dump_state w2 (delAssoc (get_state w2) name), .ok ())

/-- The loop `for a in addons: remove_addon(a)`. -/
def removeList : World → List String → World × Except Err Unit
  | w, [] => (w, .ok ())
  | w, a :: as =>
    match remove_addon w a with
    | (w1, .error e) => (w1, .error e)
    | (w1, .ok _) => removeList w1 as

/-- The comprehension `[k for k in state.keys() if a in state[k]['deps']]`;
a record without a `deps` key raises a `KeyError`. -/
def depKeys (state : List (String × Record)) (a : String) :
    Except Err (List String)
  :=
  match state with
  | [] => .ok []
  | (k, rec) :: rest =>
    match rec.deps with
    | none => .error (.keyError k)
    | some ds =>
      match depKeys rest a with
      | .error e => .error e
      | .ok l => .ok (if a ∈ ds then k :: l else l)

/-- The loop `for a in addons: deps.extend([...])`. -/
def collectDependents (state : List (String × Record)) :
    List String → Except Err (List String)
  | [] => .ok []
  | a :: as =>
    match depKeys state a with
    | .error e => .error e
    | .ok l =>
      match collectDependents state as with
      | .error e => .error e
      | .ok rest => .ok (l ++ rest)

/-- Lines 265–268 of `remove_addons`: a `None` or empty target string is
replaced by the comma-join of all installed add-ons' names. -/
def resolveString (state : List (String × Record)) (string : Option String) :
    String :=
  match string with
  | none => commaJoin (state.map Prod.fst)
  | some t => if t = "" then commaJoin (state.map Prod.fst) else t

/-- `remove_addons`: resolve the target string (defaulting to everything
installed), split on commas, optionally expand with the one-level
dependents, ask for confirmation (`confirm` models the `input()` result;
anything but `y`/`Y`/`yes` aborts), then remove each resolved add-on. -/
def remove_addons (w : World) (string : Option String)
    (remove_dependents : Bool) (confirm : String) :
    World × Except Err Unit :=
  let str := resolveString (get_state w) string
  if str = "" then (w, .ok ())
  else
    let addons := commaSplit str
    match (if remove_dependents
      then collectDependents (get_state w) addons else .ok []) with
    | .error e => (w, .error e)
    | .ok deps =>
      if confirm = "y" ∨ confirm = "Y" ∨ confirm = "yes" then
        removeList w (addons ++ deps)
      else (w, .ok ())

/-- Equality of `Except` results is decidable (used to evaluate the model
at concrete inputs). -/
instance {e a : Type} [DecidableEq e] [DecidableEq a] :
    DecidableEq (Except e a)
  | .error x, .error y =>
    if h : x = y then .isTrue (by rw [h])
    else .isFalse (fun hc => h (by injection hc))
  | .error _, .ok _ => .isFalse (fun hc => Except.noConfusion hc)
  | .ok _, .error _ => .isFalse (fun hc => Except.noConfusion hc)
  | .ok x, .ok y =>
    if h : x = y then .isTrue (by rw [h])
    else .isFalse (fun hc => h (by injection hc))

/-! ### The disk/state correspondence invariant -/

/-- The spec's State Store invariant, for canonical names with slash-free
components: `owner/repo` is a key of the persisted state iff the directory
`<installRoot>/<owner>/<repo>` exists. -/
def Inv (w : World) : Prop :=
  ∀ u r : String, '/' ∉ u.data → '/' ∉ r.data →
    ((lookupDir w u r).isSome ↔ (lookupA (get_state w) (u ++ "/" ++ r)).isSome)

/-- The effect of one successful install step on the world, as needed for
the State Store invariant: directories and records are never deleted, a
surviving directory either has a record or was already an unrecorded
directory beforehand, and every new record's key is the canonical name of
an existing directory. -/
def StepOK (w w' : World) : Prop :=
  (∀ a b : String, (lookupDir w a b).isSome → (lookupDir w' a b).isSome) ∧
  (∀ k : String, (lookupA (get_state w) k).isSome →
    (lookupA (get_state w') k).isSome) ∧
  (∀ a b : String, (lookupDir w' a b).isSome →
    (lookupA (get_state w') (a ++ "/" ++ b)).isSome ∨
    ((lookupDir w a b).isSome ∧
      ¬(lookupA (get_state w) (a ++ "/" ++ b)).isSome)) ∧
  (∀ k : String, (lookupA (get_state w') k).isSome →
    (lookupA (get_state w) k).isSome ∨
    ∃ a b : String, '/' ∉ a.data ∧ '/' ∉ b.data ∧ k = a ++ "/" ++ b ∧
      (lookupDir w' a b).isSome)

/-! ### Concrete scenarios used to evaluate the model at single inputs -/

/-- A universe where every clone succeeds at commit `sha1`, nothing is ever
ahead of `sha1`, and every working copy carries a `.remote` descriptor
pointing at `http://x/z.zip` with target `data`. -/
def univRemote : Univ where
  cloneHead := fun _ => some "sha1"
  originHead := fun _ => "sha1"
  filesAt := fun _ _ => { remoteFile := some ("http://x/z.zip", "data") }
  wgetOk := fun _ => true

/-- A universe whose remote default branch is `bbbb2222bbbb` (clones are
irrelevant: the scenario starts from an existing working copy). -/
def univUpgrade : Univ where
  cloneHead := fun _ => none
  originHead := fun _ => "bbbb2222bbbb"
  filesAt := fun _ _ => {}
  wgetOk := fun _ => true

/-- A world where `o/r` is installed at commit `aaaa1111aaaa` with a
matching state record. -/
def worldInstalled : World where
  ownerDirs := ["o"]
  repoDirs := [(("o", "r"),
    { git := some ("https://github.com/o/r", "aaaa1111aaaa") })]
  state := [("o/r", { hash := some "aaaa1111aaaa", deps := some [] })]
  downloads := []

/-- A world where `o/r` is installed at `sha1`, its working copy declares
the remote descriptor `http://x/z.zip → data`, and its state record has no
`remote`/`remote_target` fields yet. -/
def worldRemote : World where
  ownerDirs := ["o"]
  repoDirs := [(("o", "r"),
    { git := some ("https://github.com/o/r", "sha1"),
      files := { remoteFile := some ("http://x/z.zip", "data") } })]
  state := [("o/r", { hash := some "sha1", deps := some [] })]
  downloads := []

/-- A universe where every clone fails. -/
def univCloneFail : Univ where
  cloneHead := fun _ => none
  originHead := fun _ => "sha1"
  filesAt := fun _ _ => {}
  wgetOk := fun _ => true

/-- A universe where cloning `m/n` yields a working copy declaring the
single dependency `a/b`, and cloning anything else yields no descriptor
files; every clone lands at `sha1`. -/
def univDeps : Univ where
  cloneHead := fun _ => some "sha1"
  originHead := fun _ => "sha1"
  filesAt := fun url _ =>
    if url = "https://github.com/m/n" then { depsFile := some ["a/b"] }
    else {}
  wgetOk := fun _ => true

/-- A two-add-on installed state: `a/x` with no dependencies and `b/y`
depending on `a/x`. -/
def stateXY : List (String × Record) :=
  [("a/x", { hash := some "h1", deps := some [] }),
   ("b/y", { hash := some "h2", deps := some ["a/x"] })]

/-- A world installing exactly the add-ons of `stateXY`. -/
def worldXY : World where
  ownerDirs := ["a", "b"]
  repoDirs := [(("a", "x"), { git := some ("https://github.com/a/x", "h1") }),
               (("b", "y"), { git := some ("https://github.com/b/y", "h2") })]
  state := stateXY
  downloads := []

/-! ### Association-list lemmas -/

@[simp] theorem lookupA_nil {κ α : Type} [DecidableEq κ] (k : κ) :
    lookupA ([] : List (κ × α)) k = none := rfl

@[simp] theorem lookupA_cons {κ α : Type} [DecidableEq κ] (p : κ × α)
    (l : List (κ × α)) (k : κ) :
    lookupA (p :: l) k = if p.1 = k then some p.2 else lookupA l k := rfl

@[simp] theorem lookupA_append {κ α : Type} [DecidableEq κ]
    (l l' : List (κ × α)) (k : κ) :
    lookupA (l ++ l') k = ((lookupA l k).or (lookupA l' k)) := by
  induction l with
  | nil => simp
  | cons p l ih =>
    by_cases h : p.1 = k <;> simp [h, ih]

@[simp] theorem lookupA_updateAssoc_self {κ α : Type} [DecidableEq κ]
    (l : List (κ × α)) (k : κ) (f : α → α) :
    lookupA (updateAssoc l k f) k = (lookupA l k).map f := by
  induction l with
  | nil => simp [updateAssoc]
  | cons p l ih =>
    by_cases h : p.1 = k
    · simp [updateAssoc, h]
    · simpa [updateAssoc, h] using ih

theorem lookupA_updateAssoc_ne {κ α : Type} [DecidableEq κ]
    (l : List (κ × α)) (k k' : κ) (f : α → α) (h : k' ≠ k) :
    lookupA (updateAssoc l k f) k' = lookupA l k' := by
  induction l with
  | nil => simp [updateAssoc]
  | cons p l ih =>
    obtain ⟨a, b⟩ := p
    simp only [updateAssoc, List.map_cons] at ih ⊢
    by_cases hp : a = k
    · subst hp
      have ha : a ≠ k' := fun hc => h hc.symm
      simp [ha, ih]
    · by_cases hp' : a = k'
      · simp [hp, hp', h]
      · simp [hp, hp', ih]

@[simp] theorem lookupA_setAssoc_self {κ α : Type} [DecidableEq κ]
    (l : List (κ × α)) (k : κ) (v : α) :
    lookupA (setAssoc l k v) k = some v := by
  unfold setAssoc
  by_cases h : (lookupA l k).isSome
  · rw [if_pos h, lookupA_updateAssoc_self]
    obtain ⟨w, hw⟩ := Option.isSome_iff_exists.mp h
    simp [hw]
  · rw [if_neg h]
    rw [Option.not_isSome_iff_eq_none] at h
    simp [h]

theorem lookupA_setAssoc_ne {κ α : Type} [DecidableEq κ]
    (l : List (κ × α)) (k k' : κ) (v : α) (h : k' ≠ k) :
    lookupA (setAssoc l k v) k' = lookupA l k' := by
  unfold setAssoc
  by_cases hs : (lookupA l k).isSome
  · rw [if_pos hs, lookupA_updateAssoc_ne _ _ _ _ h]
  · rw [if_neg hs, lookupA_append, lookupA_cons]
    simp [Ne.symm h]

@[simp] theorem lookupA_delAssoc_self {κ α : Type} [DecidableEq κ]
    (l : List (κ × α)) (k : κ) :
    lookupA (delAssoc l k) k = none := by
  induction l with
  | nil => simp [delAssoc]
  | cons p l ih =>
    obtain ⟨a, b⟩ := p
    by_cases h : a = k
    · simpa [delAssoc, h] using ih
    · simpa [delAssoc, h] using ih

theorem lookupA_delAssoc_ne {κ α : Type} [DecidableEq κ]
    (l : List (κ × α)) (k k' : κ) (h : k' ≠ k) :
    lookupA (delAssoc l k) k' = lookupA l k' := by
  induction l with
  | nil => simp [delAssoc]
  | cons p l ih =>
    obtain ⟨a, b⟩ := p
    by_cases hp : a = k
    · subst hp
      have ha : a ≠ k' := fun hc => h hc.symm
      simpa [delAssoc, ha] using ih
    · by_cases hp' : a = k'
      · simp [delAssoc, hp, hp', h]
      · simpa [delAssoc, hp, hp'] using ih

theorem isSome_lookupA_updateAssoc {κ α : Type} [DecidableEq κ]
    (l : List (κ × α)) (k k' : κ) (f : α → α) :
    (lookupA (updateAssoc l k f) k').isSome = (lookupA l k').isSome := by
  by_cases h : k' = k
  · subst h; simp
  · rw [lookupA_updateAssoc_ne _ _ _ _ h]

/-! ### Character-level facts about `/`-splitting, for the Name Resolver -/

theorem splitOn_last_two (l x y : List Char)
    (hx : '/' ∉ x) (hy : '/' ∉ y) :
    ∃ pre, pre ≠ [] ∧
      (l ++ '/' :: (x ++ '/' :: y)).splitOn '/' = pre ++ [x, y] := by
  have hpx : ∀ a ∈ x, ¬((a == '/') = true) := by
    intro a ha hb
    exact hx (by rwa [eq_of_beq hb] at ha)
  have hpy : ∀ a ∈ y, ¬((a == '/') = true) := by
    intro a ha hb
    exact hy (by rwa [eq_of_beq hb] at ha)
  induction l with
  | nil =>
    refine ⟨[[]], by simp, ?_⟩
    simp only [List.nil_append, List.splitOn]
    rw [List.splitOnP_cons]
    simp only [beq_self_eq_true, if_true]
    rw [List.splitOnP_first _ _ hpx '/' (beq_self_eq_true '/'),
      List.splitOnP_eq_single _ _ hpy]
    rfl
  | cons c l ih =>
    obtain ⟨pre, hne, heq⟩ := ih
    simp only [List.splitOn] at heq ⊢
    rw [List.cons_append, List.splitOnP_cons]
    by_cases hc : (c == '/') = true
    · rw [if_pos hc, heq]
      exact ⟨[] :: pre, by simp, rfl⟩
    · rw [if_neg hc, heq]
      obtain ⟨p, ps, rfl⟩ := List.exists_cons_of_ne_nil hne
      exact ⟨(c :: p) :: ps, by simp, rfl⟩

theorem splitOn_pair (x y : List Char) (hx : '/' ∉ x) (hy : '/' ∉ y) :
    (x ++ '/' :: y).splitOn '/' = [x, y] := by
  have hpx : ∀ a ∈ x, ¬((a == '/') = true) := by
    intro a ha hb
    exact hx (by rwa [eq_of_beq hb] at ha)
  have hpy : ∀ a ∈ y, ¬((a == '/') = true) := by
    intro a ha hb
    exact hy (by rwa [eq_of_beq hb] at ha)
  simp only [List.splitOn]
  rw [List.splitOnP_first _ _ hpx '/' (beq_self_eq_true '/'),
    List.splitOnP_eq_single _ _ hpy]

theorem data_append_slash (owner repo : String) :
    (owner ++ "/" ++ repo).data = owner.data ++ '/' :: repo.data := by
  show (owner.data ++ ('/' :: []) ++ repo.data) = _
  simp

/-- C9: for every input that is either of the form `owner/repo` or a full
URL (an `http…` string) whose last two path segments are `owner` and
`repo`, both non-empty and slash-free, `_parse_name` returns the canonical
name exactly `owner ++ "/" ++ repo` — whose `/`-segments are exactly
`[owner, repo]`, so it carries no scheme, no trailing slash, and no
duplicated segments. -/
theorem c9_parse_name_canonical (name owner repo : String)
    (hso : '/' ∉ owner.data) (hsr : '/' ∉ repo.data)
    (hno : owner ≠ "") (hnr : repo ≠ "")
    (hform : name = owner ++ "/" ++ repo ∨
      (name.startsWith "http" = true ∧
       ∃ t : List Char,
         name.data = t ++ '/' :: (owner.data ++ '/' :: repo.data))) :
    ∃ url, _parse_name name = some (url, owner, repo, owner ++ "/" ++ repo) ∧
      (owner ++ "/" ++ repo).data.splitOn '/' = [owner.data, repo.data] := by
  have hpair : (owner.data ++ '/' :: repo.data).splitOn '/' =
      [owner.data, repo.data] := splitOn_pair _ _ hso hsr
  have hconj2 : (owner ++ "/" ++ repo).data.splitOn '/' =
      [owner.data, repo.data] := by
    rw [data_append_slash]; exact hpair
  rcases hform with rfl | ⟨hs, t, hdata⟩
  · by_cases hs : (owner ++ "/" ++ repo).startsWith "http" = true
    · refine ⟨owner ++ "/" ++ repo, ?_, hconj2⟩
      simp only [_parse_name, hs, if_true]
      rw [data_append_slash, hpair]
      rfl
    · refine ⟨"https://github.com/" ++ (owner ++ "/" ++ repo), ?_, hconj2⟩
      simp only [_parse_name, hs, Bool.false_eq_true, if_false]
      have hd : ("https://github.com/" ++ (owner ++ "/" ++ repo)).data =
          "https://github.com".data ++
            '/' :: (owner.data ++ '/' :: repo.data) := by
        show "https://github.com/".data ++ (owner ++ "/" ++ repo).data = _
        rw [data_append_slash]
        rfl
      rw [hd]
      obtain ⟨pre, hne, heq⟩ :=
        splitOn_last_two "https://github.com".data owner.data repo.data hso hsr
      rw [heq]
      obtain ⟨p, ps, rfl⟩ := List.exists_cons_of_ne_nil hne
      simp
  · refine ⟨name, ?_, hconj2⟩
    simp only [_parse_name, hs, if_true]
    rw [hdata]
    obtain ⟨pre, hne, heq⟩ := splitOn_last_two t owner.data repo.data hso hsr
    rw [heq]
    obtain ⟨p, ps, rfl⟩ := List.exists_cons_of_ne_nil hne
    simp

/-- C9, instantiated: parsing the bare reference `acme/sensors` yields the
canonical name `acme/sensors`. -/
theorem c9_parse_name_canonical_witness :
    ∃ url, _parse_name "acme/sensors" =
        some (url, "acme", "sensors", "acme" ++ "/" ++ "sensors") ∧
      ("acme" ++ "/" ++ "sensors").data.splitOn '/' =
        ["acme".data, "sensors".data] :=
  c9_parse_name_canonical "acme/sensors" "acme" "sensors" (by decide)
    (by decide) (by decide) (by decide) (.inl (by decide))

/-- C10: when `install_addon`'s final state update runs for an add-on that
already has a state record, it overwrites only that record's `hash` and
`deps` fields — the record's `remote` and `remote_target` fields, and the
records of every other add-on, are carried unchanged into the rewritten
state file. -/
theorem c10_finalize_overwrites_only_hash_deps (w : World)
    (name current : String) (deps : List String) (rec : Record)
    (h : lookupA (get_state w) name = some rec) :
    lookupA (get_state (finalizeState w name current deps)) name =
      some { hash := some current, deps := some deps,
             remote := rec.remote, remote_target := rec.remote_target } ∧
    ∀ k, k ≠ name →
      lookupA (get_state (finalizeState w name current deps)) k =
        lookupA (get_state w) k := by
  have h' : lookupA w.state name = some rec := h
  constructor
  · simp only [finalizeState, get_state, dump_state, h', Option.isSome_some,
      if_true, lookupA_updateAssoc_self]
    rfl
  · intro k hk
    simp only [finalizeState, get_state, dump_state, h', Option.isSome_some,
      if_true]
    rw [lookupA_updateAssoc_ne _ _ _ _ hk]

/-- C10, instantiated on `worldInstalled`: updating `o/r`'s record rewrites
`hash` and `deps` and nothing else. -/
theorem c10_finalize_overwrites_only_hash_deps_witness :
    lookupA (get_state (finalizeState worldInstalled "o/r" "h9" ["a/b"]))
        "o/r" =
      some { hash := some "h9", deps := some ["a/b"],
             remote := ({ hash := some "aaaa1111aaaa",
                          deps := some [] } : Record).remote,
             remote_target := ({ hash := some "aaaa1111aaaa",
                                 deps := some [] } : Record).remote_target } ∧
    ∀ k, k ≠ "o/r" →
      lookupA (get_state (finalizeState worldInstalled "o/r" "h9" ["a/b"]))
          k =
        lookupA (get_state worldInstalled) k :=
  c10_finalize_overwrites_only_hash_deps worldInstalled "o/r" "h9" ["a/b"]
    { hash := some "aaaa1111aaaa", deps := some [] } (by decide)

/-- C7: `remove_addon` on an add-on whose install directory does not exist
raises the not-installed error and leaves the world — state store and
filesystem — exactly unchanged. -/
theorem c7_remove_missing_dir (w : World) (name0 url u r name : String)
    (hp : _parse_name name0 = some (url, u, r, name))
    (hd : lookupDir w u r = none) :
    remove_addon w name0 = (w, .error (.notInstalled name)) := by
  simp only [remove_addon, hp, hd]

/-- C7, instantiated: removing `o/r` from the empty world raises and
changes nothing. -/
theorem c7_remove_missing_dir_witness :
    remove_addon ({} : World) "o/r" =
      ({}, .error (.notInstalled "o/r")) :=
  c7_remove_missing_dir {} "o/r" "https://github.com/o/r" "o" "r" "o/r"
    (by decide) (by decide)

/-- C8: a successful `remove_addon` of an installed add-on (directory and
record both present) deletes the on-disk directory and the state entry,
and removes the owner-level parent directory iff it became empty after the
deletion, leaving it intact otherwise. -/
theorem c8_remove_deletes_dir_and_entry (w : World)
    (name0 url u r name : String) (d : RepoDir) (rec : Record)
    (hp : _parse_name name0 = some (url, u, r, name))
    (hd : lookupDir w u r = some d)
    (hr : lookupA (get_state w) name = some rec)
    (hnodup : w.ownerDirs.Nodup) :
    ∃ w', remove_addon w name0 = (w', .ok ()) ∧
      lookupDir w' u r = none ∧
      lookupA (get_state w') name = none ∧
      (u ∈ w'.ownerDirs ↔ u ∈ w.ownerDirs ∧
        listdirOwner { w with repoDirs := delAssoc w.repoDirs (u, r) } u
          ≠ []) := by
  have hr' : lookupA w.state name = some rec := hr
  by_cases hcond : u ∈ w.ownerDirs ∧
      listdirOwner { w with repoDirs := delAssoc w.repoDirs (u, r) } u = []
  · refine ⟨{ ownerDirs := w.ownerDirs.erase u,
              repoDirs := delAssoc w.repoDirs (u, r),
              state := delAssoc w.state name,
              downloads := w.downloads }, ?_, ?_, ?_, ?_⟩
    · simp only [remove_addon, hp, hd, hr']
      rw [if_pos hcond]
      simp only [get_state, dump_state, hr']
    · simp only [lookupDir, dump_state, lookupA_delAssoc_self]
    · simp only [get_state, dump_state, lookupA_delAssoc_self]
    · simp only [dump_state]
      constructor
      · intro hmem
        exact absurd rfl ((List.Nodup.mem_erase_iff hnodup).mp hmem).1
      · intro hmem
        exact absurd hcond.2 hmem.2
  · refine ⟨{ ownerDirs := w.ownerDirs,
              repoDirs := delAssoc w.repoDirs (u, r),
              state := delAssoc w.state name,
              downloads := w.downloads }, ?_, ?_, ?_, ?_⟩
    · simp only [remove_addon, hp, hd, hr']
      rw [if_neg hcond]
      simp only [get_state, dump_state, hr']
    · simp only [lookupDir, dump_state, lookupA_delAssoc_self]
    · simp only [get_state, dump_state, lookupA_delAssoc_self]
    · simp only [dump_state]
      rw [Classical.not_and_iff_or_not_not] at hcond
      constructor
      · intro hmem
        rcases hcond with hc | hc
        · exact absurd hmem hc
        · exact ⟨hmem, hc⟩
      · intro hmem
        exact hmem.1

/-- C8, instantiated on `worldXY`: removing `a/x` deletes its directory,
its record, and — `a` having no other repositories — its parent. -/
theorem c8_remove_deletes_dir_and_entry_witness :
    ∃ w', remove_addon worldXY "a/x" = (w', .ok ()) ∧
      lookupDir w' "a" "x" = none ∧
      lookupA (get_state w') "a/x" = none ∧
      ("a" ∈ w'.ownerDirs ↔ "a" ∈ worldXY.ownerDirs ∧
        listdirOwner { worldXY with
          repoDirs := delAssoc worldXY.repoDirs ("a", "x") } "a" ≠ []) :=
  c8_remove_deletes_dir_and_entry worldXY "a/x" "https://github.com/a/x"
    "a" "x" "a/x" { git := some ("https://github.com/a/x", "h1") }
    { hash := some "h1", deps := some [] } (by decide) (by decide)
    (by decide) (by decide)

/-- C6: when the interactive confirmation input to `remove_addons` is any
string other than `y`, `Y`, or `yes`, the call leaves the world — the
persisted state file and every add-on directory — exactly as it was. -/
theorem c6_no_confirmation_no_change (w : World) (s : Option String)
    (rd : Bool) (confirm : String)
    (h1 : confirm ≠ "y") (h2 : confirm ≠ "Y") (h3 : confirm ≠ "yes") :
    (remove_addons w s rd confirm).1 = w := by
  unfold remove_addons
  by_cases hstr : resolveString (get_state w) s = ""
  · simp [hstr]
  · simp only [hstr, if_false]
    cases hcd : (if rd then collectDependents (get_state w)
        (commaSplit (resolveString (get_state w) s)) else Except.ok []) with
    | error e => simp [hcd]
    | ok deps => simp [hcd, h1, h2, h3]

/-- C6, instantiated: answering `n` leaves `worldXY` untouched. -/
theorem c6_no_confirmation_no_change_witness :
    (remove_addons worldXY none true "n").1 = worldXY :=
  c6_no_confirmation_no_change worldXY none true "n" (by decide) (by decide)
    (by decide)

/-- C2's failing input, evaluated: upgrading `o/r` from `aaaa1111aaaa` to
the remote head `bbbb2222bbbb` leaves the working copy at `bbbb2222bbbb`
but persists `hash = "aaaa1111aaaa"` — the pre-reset HEAD — because the
upgrade branch never re-reads HEAD after `git reset --hard origin/HEAD`. -/
theorem c2_upgrade_persists_stale_hash :
    (install_addon univUpgrade 1 worldInstalled "o/r").2 = .ok ["o/r"] ∧
    (lookupDir ((install_addon univUpgrade 1 worldInstalled "o/r").1)
        "o" "r").map (fun d => d.git) =
      some (some ("https://github.com/o/r", "bbbb2222bbbb")) ∧
    (lookupA (get_state ((install_addon univUpgrade 1 worldInstalled
        "o/r").1)) "o/r").map (fun rec => rec.hash) =
      some (some "aaaa1111aaaa") ∧
    "aaaa1111aaaa" ≠ "bbbb2222bbbb" := by
  decide

/-- C1 counterexample: a fresh install (no state record, so the stored pair
certainly differs from the descriptor's) of an add-on whose working copy
carries a `.remote` descriptor does *not* download the archive — the
skip-check's `state[name]` lookup raises a `KeyError` instead. -/
theorem c1_counterexample :
    lookupA (get_state ({} : World)) "o/r" = none ∧
    (install_addon univRemote 2 {} "o/r").2 = .error (.keyError "o/r") ∧
    ((install_addon univRemote 2 {} "o/r").1).downloads = [] ∧
    (lookupDir ((install_addon univRemote 2 {} "o/r").1) "o" "r").map
        (fun d => d.files.remoteFile) =
      some (some ("http://x/z.zip", "data")) := by
  decide

/-- C1, amended: for every run of the remote-content step against an
add-on whose working copy carries a `.remote` descriptor, *if the add-on
has a state record*, the archive is downloaded (a `wget` is logged) iff the
record's `(remote, remote_target)` pair differs from the descriptor's
`(url, target)`, and an identical pair makes the step a complete no-op;
with *no* state record the step raises a `KeyError`, downloading nothing
and leaving the world unchanged. -/
theorem c1_remote_fetch_iff_pair_differs (U : Univ) (w : World)
    (u r name remote target : String) (d : RepoDir)
    (hd : lookupDir w u r = some d)
    (hrf : d.files.remoteFile = some (remote, target)) :
    (∃ rec, lookupA (get_state w) name = some rec ∧
      ((rec.remote = some remote ∧ rec.remote_target = some target ∧
        fetchRemote U w u r name = (w, .ok ())) ∨
       (¬(rec.remote = some remote ∧ rec.remote_target = some target) ∧
        ((fetchRemote U w u r name).1).downloads =
          w.downloads ++ [remote]))) ∨
    (lookupA (get_state w) name = none ∧
      fetchRemote U w u r name = (w, .error (.keyError name))) := by
  cases hrec : lookupA (get_state w) name with
  | none =>
    right
    refine ⟨rfl, ?_⟩
    simp only [fetchRemote, hd, hrf, hrec]
  | some rec =>
    left
    refine ⟨rec, rfl, ?_⟩
    by_cases hpair : rec.remote = some remote ∧
        rec.remote_target = some target
    · left
      refine ⟨hpair.1, hpair.2, ?_⟩
      simp only [fetchRemote, hd, hrf, hrec, hpair.1, hpair.2]
      simp
    · right
      refine ⟨hpair, ?_⟩
      have hcond : rec.remote ≠ some remote ∨
          rec.remote_target ≠ some target := by
        rw [Classical.not_and_iff_or_not_not] at hpair
        exact hpair
      simp only [fetchRemote, hd, hrf, hrec]
      rw [if_pos hcond]
      by_cases hw : U.wgetOk remote = true
      · rw [if_pos hw]
        simp [dump_state, setDir]
      · rw [if_neg hw]

/-- C1, instantiated on `worldRemote`: the record exists but stores no
remote pair, so the step downloads the archive. -/
theorem c1_remote_fetch_iff_pair_differs_witness :
    (∃ rec, lookupA (get_state worldRemote) "o/r" = some rec ∧
      ((rec.remote = some "http://x/z.zip" ∧
        rec.remote_target = some "data" ∧
        fetchRemote univRemote worldRemote "o" "r" "o/r" =
          (worldRemote, .ok ())) ∨
       (¬(rec.remote = some "http://x/z.zip" ∧
          rec.remote_target = some "data") ∧
        ((fetchRemote univRemote worldRemote "o" "r" "o/r").1).downloads =
          worldRemote.downloads ++ ["http://x/z.zip"]))) ∨
    (lookupA (get_state worldRemote) "o/r" = none ∧
      fetchRemote univRemote worldRemote "o" "r" "o/r" =
        (worldRemote, .error (.keyError "o/r"))) :=
  c1_remote_fetch_iff_pair_differs univRemote worldRemote "o" "r" "o/r"
    "http://x/z.zip" "data"
    { git := some ("https://github.com/o/r", "sha1"),
      files := { remoteFile := some ("http://x/z.zip", "data") } }
    (by decide) (by decide)

/-- A successful `runList` returns one result per input element. -/
theorem runList_length {α : Type}
    (f : World → String → World × Except Err α) (ds : List String) :
    ∀ (w w' : World) (xs : List α),
    runList f w ds = (w', .ok xs) → xs.length = ds.length := by
  induction ds with
  | nil =>
    intro w w' xs h
    simp only [runList, Prod.mk.injEq] at h
    obtain ⟨rfl, h2⟩ := h
    injection h2 with h3
    simp [← h3]
  | cons d ds ih =>
    intro w w' xs h
    simp only [runList] at h
    cases hf : f w d with
    | mk w1 res =>
      rw [hf] at h
      cases res with
      | error e => simp at h
      | ok x =>
        simp only at h
        cases hr : runList f w1 ds with
        | mk w2 res2 =>
          rw [hr] at h
          cases res2 with
          | error e => simp at h
          | ok xs2 =>
            simp only [Prod.mk.injEq] at h
            obtain ⟨rfl, h2⟩ := h
            injection h2 with h3
            simp [← h3, ih w1 w2 xs2 hr]

set_option maxHeartbeats 2000000 in
/-- Unfolding equation for `install_addon` at positive fuel. -/
theorem install_addon_succ (U : Univ) (fuel : Nat) (w : World)
    (name0 : String) :
    install_addon U (fuel + 1) w name0 =
      match _parse_name name0 with
      | none => (w, .error (.parseError name0))
      | some (url, u, r, name) =>
        let w1 := ensurePath w u r
        match syncRepo U w1 u r name url with
        | (w2, .error e) => (w2, .error e)
        | (w2, .ok current) =>
          match fetchRemote U w2 u r name with
          | (w3, .error e) => (w3, .error e)
          | (w3, .ok _) =>
            let deps := depsOf w3 u r
            match runList (install_addon U fuel) w3 deps with
            | (w4, .error e) => (w4, .error e)
            | (w4, .ok rets) =>
              (finalizeState w4 name current deps,
               .ok (name :: rets.flatten)) := rfl

set_option maxHeartbeats 2000000 in
/-- C3: every successful `install_addon` run returns its own canonical
name first, followed by the lists returned by the recursive installs of
the `.dependencies` entries — one list per declared dependency, in
declared order, concatenated without deduplication; with no dependency
file (so `depsOf` is empty) the result is exactly the singleton of the
canonical name. -/
theorem c3_install_returns_self_then_deps (U : Univ) (fuel : Nat)
    (w w' : World) (name0 : String) (ret : List String)
    (h : install_addon U (fuel + 1) w name0 = (w', .ok ret)) :
    ∃ url u r name w2 current w3 w4 rets,
      _parse_name name0 = some (url, u, r, name) ∧
      syncRepo U (ensurePath w u r) u r name url = (w2, .ok current) ∧
      fetchRemote U w2 u r name = (w3, .ok ()) ∧
      installList U fuel w3 (depsOf w3 u r) = (w4, .ok rets) ∧
      rets.length = (depsOf w3 u r).length ∧
      ret = name :: rets.flatten ∧
      ((depsOf w3 u r) = [] → ret = [name]) := by
  rw [install_addon_succ] at h
  cases hp : _parse_name name0 with
  | none => rw [hp] at h; simp at h
  | some q =>
    obtain ⟨url, u, r, name⟩ := q
    rw [hp] at h
    simp only at h
    cases hs : syncRepo U (ensurePath w u r) u r name url with
    | mk w2 res =>
      rw [hs] at h
      cases res with
      | error e => simp at h
      | ok current =>
        simp only at h
        cases hf : fetchRemote U w2 u r name with
        | mk w3 res2 =>
          rw [hf] at h
          cases res2 with
          | error e => simp at h
          | ok u0 =>
            obtain ⟨⟩ := u0
            simp only at h
            cases hl : runList (install_addon U fuel) w3 (depsOf w3 u r)
              with
            | mk w4 res3 =>
              rw [hl] at h
              cases res3 with
              | error e => simp at h
              | ok rets =>
                simp only at h
                simp only [Prod.mk.injEq] at h
                obtain ⟨rfl, h2⟩ := h
                injection h2 with h3
                refine ⟨url, u, r, name, w2, current, w3, w4, rets,
                  rfl, hs, hf, hl, runList_length _ _ _ _ _ hl, h3.symm,
                  ?_⟩
                intro hnil
                rw [hnil] at hl
                have := runList_length _ _ _ _ _ hl
                have hr0 : rets = [] :=
                  List.length_eq_zero.mp (by simpa using this)
                rw [← h3, hr0]
                simp

/-- C3, instantiated: installing `m/n`, which depends on `a/b`, returns
`["m/n", "a/b"]` — itself first, then the dependency's returned list. -/
theorem c3_install_returns_self_then_deps_witness :
    ∃ url u r name w2 current w3 w4 rets,
      _parse_name "m/n" = some (url, u, r, name) ∧
      syncRepo univDeps (ensurePath {} u r) u r name url =
        (w2, .ok current) ∧
      fetchRemote univDeps w2 u r name = (w3, .ok ()) ∧
      installList univDeps 1 w3 (depsOf w3 u r) = (w4, .ok rets) ∧
      rets.length = (depsOf w3 u r).length ∧
      ["m/n", "a/b"] = name :: rets.flatten ∧
      ((depsOf w3 u r) = [] → ["m/n", "a/b"] = [name]) :=
  c3_install_returns_self_then_deps univDeps 1 {}
    ((install_addon univDeps 2 {} "m/n").1) "m/n" ["m/n", "a/b"]
    (by decide)

/-- C4 counterexample: `install_addon` with a failing clone starts from a
world satisfying the invariant and raises, leaving the created directory
`o/r` on disk with no state record — the invariant does not survive
error runs. -/
theorem c4_counterexample :
    Inv ({} : World) ∧
    (install_addon univCloneFail 1 {} "o/r").2 =
      .error (.cloneError "o/r" "https://github.com/o/r") ∧
    (lookupDir ((install_addon univCloneFail 1 {} "o/r").1) "o" "r").isSome ∧
    lookupA (get_state ((install_addon univCloneFail 1 {} "o/r").1))
      "o/r" = none ∧
    ¬ Inv ((install_addon univCloneFail 1 {} "o/r").1) := by
  refine ⟨?_, by decide, by decide, by decide, ?_⟩
  · intro u r _ _
    simp [lookupDir, get_state, lookupA]
  · intro h
    have := h "o" "r" (by decide) (by decide)
    rw [show ("o" ++ "/" ++ "r") = "o/r" from rfl] at this
    have h1 : (lookupDir ((install_addon univCloneFail 1 {} "o/r").1)
        "o" "r").isSome := by decide
    have h2 : lookupA (get_state ((install_addon univCloneFail 1 {}
        "o/r").1)) "o/r" = none := by decide
    rw [h2] at this
    simp at this
    rw [this] at h1
    simp at h1

/-- The comprehension `[k for k in state.keys() if a in state[k]['deps']]`
succeeds when every record has a `deps` key, returning the keys of the
records whose `deps` list contains `a`, in state order. -/
theorem depKeys_ok (state : List (String × Record)) (a : String)
    (hdeps : ∀ p ∈ state, (p.2.deps).isSome) :
    depKeys state a = .ok ((state.filter
      (fun p => decide (a ∈ p.2.deps.getD []))).map Prod.fst) := by
  induction state with
  | nil => rfl
  | cons p rest ih =>
    obtain ⟨k, rec⟩ := p
    have hd := hdeps (k, rec) (List.mem_cons_self _ _)
    obtain ⟨ds, hds⟩ := Option.isSome_iff_exists.mp hd
    have hds2 : rec.deps = some ds := hds
    simp only [depKeys, hds2]
    rw [ih (fun q hq => hdeps q (List.mem_cons_of_mem _ hq))]
    by_cases hm : a ∈ ds
    · simp [List.filter_cons, hds2, hm]
    · simp [List.filter_cons, hds2, hm]

/-- The dependent-collection loop, described by `flatMap`. -/
theorem collectDependents_ok (state : List (String × Record))
    (addons : List String)
    (hdeps : ∀ p ∈ state, (p.2.deps).isSome) :
    collectDependents state addons = .ok (addons.flatMap
      (fun a => (state.filter
        (fun p => decide (a ∈ p.2.deps.getD []))).map Prod.fst)) := by
  induction addons with
  | nil => rfl
  | cons a as ih =>
    simp only [collectDependents, depKeys_ok state a hdeps, ih]
    rw [List.flatMap_cons]

/-- Splitting the comma-join of comma-free names recovers the names. -/
theorem commaSplit_commaJoin (keys : List String)
    (hnc : ∀ k ∈ keys, ',' ∉ k.data) (hk : keys ≠ []) :
    commaSplit (commaJoin keys) = keys := by
  unfold commaSplit commaJoin
  have h1 : (String.mk ([','].intercalate (keys.map String.data))).data
      = [','].intercalate (keys.map String.data) := rfl
  rw [h1, List.splitOn_intercalate]
  · rw [List.map_map]
    have hcomp : ∀ k : String, (String.mk ∘ String.data) k = k :=
      fun k => rfl
    calc List.map (String.mk ∘ String.data) keys
        = List.map id keys := List.map_congr_left (fun k _ => hcomp k)
      _ = keys := List.map_id keys
  · intro l hl
    obtain ⟨k, hk2, rfl⟩ := List.mem_map.mp hl
    exact hnc k hk2
  · simp [hk]

/-- The comma-join of a non-empty list of non-empty names is non-empty. -/
theorem commaJoin_ne_empty (keys : List String) (hk : keys ≠ [])
    (hne : ∀ k ∈ keys, k ≠ "") : commaJoin keys ≠ "" := by
  intro hc
  have hdata : [','].intercalate (keys.map String.data) = [] := by
    have := congrArg String.data hc
    exact this
  cases keys with
  | nil => exact hk rfl
  | cons k rest =>
    cases rest with
    | nil =>
      simp [List.intercalate] at hdata
      exact hne k (by simp) (by
        have : k.data = [] := hdata
        cases k
        simp_all)
    | cons k2 rest2 =>
      simp [List.intercalate] at hdata


/-- C5: `remove_addons` with a `None` or empty target string targets every
currently installed add-on; with `remove_dependents` the removal set is
expanded to contain additionally exactly those installed add-ons whose
`deps` list names one of the targeted add-ons (one level, by a single pass
over the current state); on confirmation the call removes precisely the
targets followed by the collected dependents. -/
theorem c5_remove_targets_and_dependents (state : List (String × Record))
    (hk : state ≠ [])
    (hnc : ∀ k ∈ state.map Prod.fst, ',' ∉ k.data)
    (hne : ∀ k ∈ state.map Prod.fst, k ≠ "")
    (hdeps : ∀ p ∈ state, (p.2.deps).isSome) :
    (∀ s : Option String, s = none ∨ s = some "" →
      commaSplit (resolveString state s) = state.map Prod.fst) ∧
    (∀ addons : List String, ∃ deps,
      collectDependents state addons = .ok deps ∧
      ∀ k, k ∈ deps ↔ ∃ rec ds, (k, rec) ∈ state ∧ rec.deps = some ds ∧
        ∃ a ∈ addons, a ∈ ds) ∧
    (∀ (w : World) (s : Option String), get_state w = state →
      (s = none ∨ s = some "") →
      ∃ deps, collectDependents state (state.map Prod.fst) = .ok deps ∧
        remove_addons w s true "y" =
          removeList w (state.map Prod.fst ++ deps)) := by
  have hkm : state.map Prod.fst ≠ [] := by
    intro hc
    exact hk (List.map_eq_nil_iff.mp hc)
  have hsplit : ∀ s : Option String, s = none ∨ s = some "" →
      commaSplit (resolveString state s) = state.map Prod.fst := by
    rintro s (rfl | rfl)
    · exact commaSplit_commaJoin _ hnc hkm
    · simp only [resolveString, if_pos rfl]
      exact commaSplit_commaJoin _ hnc hkm
  have hstr : ∀ s : Option String, s = none ∨ s = some "" →
      resolveString state s = commaJoin (state.map Prod.fst) := by
    rintro s (rfl | rfl)
    · rfl
    · simp [resolveString]
  refine ⟨hsplit, ?_, ?_⟩
  · intro addons
    refine ⟨_, collectDependents_ok state addons hdeps, ?_⟩
    intro k
    constructor
    · intro hm
      obtain ⟨a, ha, hk2⟩ := List.mem_flatMap.mp hm
      obtain ⟨p, hp, rfl⟩ := List.mem_map.mp hk2
      obtain ⟨p2, hflt⟩ := List.mem_filter.mp hp
      obtain ⟨ds, hds⟩ := Option.isSome_iff_exists.mp (hdeps p p2)
      refine ⟨p.2, ds, ?_, hds, a, ha, ?_⟩
      · rw [show (p.1, p.2) = p from rfl]
        exact p2
      · have hx := of_decide_eq_true hflt
        simpa [hds] using hx
    · rintro ⟨rec, ds, hmem, hds, a, ha, hin⟩
      apply List.mem_flatMap.mpr
      refine ⟨a, ha, ?_⟩
      apply List.mem_map.mpr
      refine ⟨(k, rec), ?_, rfl⟩
      apply List.mem_filter.mpr
      refine ⟨hmem, ?_⟩
      simp [hds, hin]
  · intro w s hw hs
    refine ⟨_, collectDependents_ok state (state.map Prod.fst) hdeps, ?_⟩
    have hstrne : resolveString state s ≠ "" := by
      rw [hstr s hs]
      exact commaJoin_ne_empty _ hkm hne
    unfold remove_addons
    rw [hw, if_neg hstrne, hsplit s hs]
    simp only [if_true]
    rw [collectDependents_ok state (state.map Prod.fst) hdeps]
    simp

/-- C5, instantiated on `stateXY` (`b/y` depends on `a/x`): defaulting
targets both installed add-ons, and the expansion of any target list
containing `a/x` includes `b/y`. -/
theorem c5_remove_targets_and_dependents_witness :
    (∀ s : Option String, s = none ∨ s = some "" →
      commaSplit (resolveString stateXY s) = stateXY.map Prod.fst) ∧
    (∀ addons : List String, ∃ deps,
      collectDependents stateXY addons = .ok deps ∧
      ∀ k, k ∈ deps ↔ ∃ rec ds, (k, rec) ∈ stateXY ∧ rec.deps = some ds ∧
        ∃ a ∈ addons, a ∈ ds) ∧
    (∀ (w : World) (s : Option String), get_state w = stateXY →
      (s = none ∨ s = some "") →
      ∃ deps, collectDependents stateXY (stateXY.map Prod.fst) = .ok deps ∧
        remove_addons w s true "y" =
          removeList w (stateXY.map Prod.fst ++ deps)) :=
  c5_remove_targets_and_dependents stateXY (by decide) (by decide)
    (by decide) (by decide)

/-- Setting an existing key changes no key's presence. -/
theorem isSome_setAssoc_existing {κ α : Type} [DecidableEq κ]
    (l : List (κ × α)) (k k' : κ) (v : α) (h : (lookupA l k).isSome) :
    (lookupA (setAssoc l k v) k').isSome = (lookupA l k').isSome := by
  unfold setAssoc
  rw [if_pos h]
  exact isSome_lookupA_updateAssoc l k k' _

/-- Key presence after appending a single binding. -/
theorem isSome_lookupA_append_single {κ α : Type} [DecidableEq κ]
    (l : List (κ × α)) (k k' : κ) (v : α) :
    (lookupA (l ++ [(k, v)]) k').isSome ↔
      (k' = k ∨ (lookupA l k').isSome) := by
  rw [lookupA_append]
  cases ho : lookupA l k' with
  | some d => simp
  | none =>
    rw [Option.none_or, lookupA_cons]
    by_cases heq : k = k'
    · simp [heq]
    · rw [if_neg heq]
      simp only [lookupA_nil, Option.isSome_none, ho]
      constructor
      · intro hc
        simp at hc
      · rintro (hc | hc)
        · exact absurd hc.symm heq
        · exact Bool.noConfusion hc

/-- `ensurePath` never touches the state file. -/
theorem ensurePath_state (w : World) (u r : String) :
    (ensurePath w u r).state = w.state := by
  unfold ensurePath
  split <;> rfl

/-- After `ensurePath`, exactly the ensured directory is added. -/
theorem ensurePath_dir (w : World) (u r a b : String) :
    (lookupDir (ensurePath w u r) a b).isSome ↔
      ((a, b) = (u, r) ∨ (lookupDir w a b).isSome) := by
  unfold ensurePath
  by_cases hex : (lookupDir w u r).isSome
  · rw [if_pos hex]
    constructor
    · exact Or.inr
    · rintro (heq | hs)
      · injection heq with h1 h2
        subst h1; subst h2
        exact hex
      · exact hs
  · rw [if_neg hex]
    show (lookupA (w.repoDirs ++ [((u, r), ({} : RepoDir))]) (a, b)).isSome
      ↔ _
    rw [isSome_lookupA_append_single]
    exact Iff.rfl

/-- `syncRepo` leaves the state file, the download log, and the set of
existing directories unchanged (it only clones into or resets an already
existing directory). -/
theorem syncRepo_shape (U : Univ) (w : World) (u r name url : String)
    (w' : World) (res : Except Err String)
    (h : syncRepo U w u r name url = (w', res)) :
    w'.state = w.state ∧ w'.downloads = w.downloads ∧
    ∀ a b, (lookupDir w' a b).isSome = (lookupDir w a b).isSome := by
  have hkey : ∀ d, lookupDir w u r = some d →
      (lookupA w.repoDirs (u, r)).isSome := by
    intro d hd
    simp only [lookupDir] at hd
    simp [hd]
  unfold syncRepo at h
  cases hd : lookupDir w u r with
  | none =>
    rw [hd] at h
    injection h with h1 h2
    subst h1
    exact ⟨rfl, rfl, fun a b => rfl⟩
  | some d =>
    rw [hd] at h
    simp only at h
    cases hg : d.git with
    | none =>
      rw [hg] at h
      cases hc : U.cloneHead url with
      | none =>
        rw [hc] at h
        injection h with h1 h2
        subst h1
        exact ⟨rfl, rfl, fun a b => rfl⟩
      | some sha =>
        rw [hc] at h
        simp only at h
        injection h with h1 h2
        subst h1
        refine ⟨rfl, rfl, fun a b => ?_⟩
        simp only [lookupDir, setDir]
        exact isSome_setAssoc_existing _ _ _ _ (hkey d hd)
    | some pr =>
      obtain ⟨origin, head⟩ := pr
      rw [hg] at h
      simp only at h
      by_cases he : head = U.originHead origin
      · rw [if_pos he] at h
        injection h with h1 h2
        subst h1
        exact ⟨rfl, rfl, fun a b => rfl⟩
      · rw [if_neg he] at h
        injection h with h1 h2
        subst h1
        refine ⟨rfl, rfl, fun a b => ?_⟩
        simp only [lookupDir, setDir]
        exact isSome_setAssoc_existing _ _ _ _ (hkey d hd)


/-- `fetchRemote` changes neither which directories exist nor which state
keys exist (it only updates fields of an existing record). -/
theorem fetchRemote_shape (U : Univ) (w : World) (u r name : String)
    (w' : World) (res : Except Err Unit)
    (h : fetchRemote U w u r name = (w', res)) :
    (∀ a b, (lookupDir w' a b).isSome = (lookupDir w a b).isSome) ∧
    (∀ k, (lookupA w'.state k).isSome = (lookupA w.state k).isSome) := by
  have hkey : ∀ d, lookupDir w u r = some d →
      (lookupA w.repoDirs (u, r)).isSome := by
    intro d hd
    simp only [lookupDir] at hd
    simp [hd]
  unfold fetchRemote at h
  cases hd : lookupDir w u r with
  | none =>
    rw [hd] at h
    injection h with h1 h2
    subst h1
    exact ⟨fun a b => rfl, fun k => rfl⟩
  | some d =>
    rw [hd] at h
    simp only at h
    cases hrf : d.files.remoteFile with
    | none =>
      rw [hrf] at h
      injection h with h1 h2
      subst h1
      exact ⟨fun a b => rfl, fun k => rfl⟩
    | some pr =>
      obtain ⟨remote, target⟩ := pr
      rw [hrf] at h
      simp only at h
      cases hrec : lookupA (get_state w) name with
      | none =>
        rw [hrec] at h
        injection h with h1 h2
        subst h1
        exact ⟨fun a b => rfl, fun k => rfl⟩
      | some rec =>
        rw [hrec] at h
        simp only at h
        by_cases hcond : rec.remote ≠ some remote ∨
            rec.remote_target ≠ some target
        · rw [if_pos hcond] at h
          by_cases hw : U.wgetOk remote = true
          · rw [if_pos hw] at h
            injection h with h1 h2
            subst h1
            constructor
            · intro a b
              simp only [lookupDir, dump_state, setDir]
              exact isSome_setAssoc_existing _ _ _ _ (hkey d hd)
            · intro k
              simp only [dump_state, get_state, setDir]
              exact isSome_lookupA_updateAssoc _ _ _ _
          · rw [if_neg hw] at h
            injection h with h1 h2
            subst h1
            exact ⟨fun a b => rfl, fun k => rfl⟩
        · rw [if_neg hcond] at h
          injection h with h1 h2
          subst h1
          exact ⟨fun a b => rfl, fun k => rfl⟩

/-- `finalizeState` never touches the filesystem. -/
theorem finalize_dirs (w : World) (n c : String) (d : List String) :
    (finalizeState w n c d).repoDirs = w.repoDirs := rfl

/-- After `finalizeState`, the state keys are the old ones plus `n`. -/
theorem finalize_state_keys (w : World) (n c : String) (d : List String)
    (k : String) :
    (lookupA (finalizeState w n c d).state k).isSome ↔
      (k = n ∨ (lookupA w.state k).isSome) := by
  unfold finalizeState
  by_cases hex : (lookupA w.state n).isSome
  · simp only [get_state, dump_state]
    rw [if_pos hex, isSome_lookupA_updateAssoc]
    constructor
    · exact Or.inr
    · rintro (rfl | hs)
      · exact hex
      · exact hs
  · simp only [get_state, dump_state]
    rw [if_neg hex, isSome_lookupA_updateAssoc]
    exact isSome_lookupA_append_single _ _ _ _

/-- `finalizeState` leaves a record for the finalized name. -/
theorem finalize_at_name (w : World) (n c : String) (d : List String) :
    (lookupA (finalizeState w n c d).state n).isSome := by
  rw [finalize_state_keys]
  exact Or.inl rfl


/-- No segment produced by `splitOn` contains the separator. -/
theorem splitOn_sep_not_mem (c : Char) (xs : List Char) :
    ∀ seg ∈ xs.splitOn c, c ∉ seg := by
  induction xs with
  | nil =>
    intro seg h
    simp only [List.splitOn_nil, List.mem_singleton] at h
    subst h
    simp
  | cons x xs ih =>
    intro seg h
    simp only [List.splitOn] at h ih
    rw [List.splitOnP_cons] at h
    by_cases hx : (x == c) = true
    · rw [if_pos hx] at h
      rcases List.mem_cons.mp h with rfl | h2
      · simp
      · exact ih seg h2
    · rw [if_neg hx] at h
      obtain ⟨hd, tl, heq⟩ :=
        List.exists_cons_of_ne_nil (List.splitOnP_ne_nil _ xs)
      rw [heq] at h
      simp only [List.modifyHead] at h
      rcases List.mem_cons.mp h with rfl | h2
      · intro hc
        rcases List.mem_cons.mp hc with rfl | hc2
        · exact hx (beq_self_eq_true c)
        · exact ih hd (heq ▸ List.mem_cons_self _ _) hc2
      · exact ih seg (heq ▸ List.mem_cons_of_mem _ h2)

/-- `_parse_name` produces slash-free owner and repo components, and the
canonical name is exactly their slash-joined concatenation. -/
theorem parse_name_slashfree (name0 url u r name : String)
    (h : _parse_name name0 = some (url, u, r, name)) :
    '/' ∉ u.data ∧ '/' ∉ r.data ∧ name = u ++ "/" ++ r := by
  unfold _parse_name at h
  simp only at h
  cases hsp : ((if name0.startsWith "http" then name0
      else "https://github.com/" ++ name0).data.splitOn '/').reverse with
  | nil => rw [hsp] at h; simp at h
  | cons rseg rest =>
    cases rest with
    | nil => rw [hsp] at h; simp at h
    | cons useg rest2 =>
      rw [hsp] at h
      simp only [Option.some.injEq, Prod.mk.injEq] at h
      obtain ⟨rfl, hu, hr, hn⟩ := h
      have hmem : ∀ seg ∈ ((if name0.startsWith "http" then name0
          else "https://github.com/" ++ name0).data.splitOn '/'),
          '/' ∉ seg := splitOn_sep_not_mem '/' _
      have hrseg : '/' ∉ rseg := by
        apply hmem
        rw [← List.mem_reverse, hsp]
        exact List.mem_cons_self _ _
      have huseg : '/' ∉ useg := by
        apply hmem
        rw [← List.mem_reverse, hsp]
        exact List.mem_cons_of_mem _ (List.mem_cons_self _ _)
      subst hu; subst hr; subst hn
      exact ⟨huseg, hrseg, rfl⟩

/-- A list split as `a ++ x :: b` with `x ∉ a` determines `a` and `b`. -/
theorem append_sep_inj (x : Char) (a : List Char) :
    ∀ (a' b b' : List Char), x ∉ a → x ∉ a' →
    a ++ x :: b = a' ++ x :: b' → a = a' ∧ b = b' := by
  induction a with
  | nil =>
    intro a' b b' _ ha' h
    cases a' with
    | nil => simpa using h
    | cons c t =>
      simp only [List.nil_append, List.cons_append, List.cons.injEq] at h
      exact absurd (h.1 ▸ List.mem_cons_self c t) ha'
  | cons c t ih =>
    intro a' b b' ha ha' h
    cases a' with
    | nil =>
      simp only [List.cons_append, List.nil_append, List.cons.injEq] at h
      exact absurd (h.1.symm ▸ List.mem_cons_self c t) ha
    | cons c' t' =>
      simp only [List.cons_append, List.cons.injEq] at h
      obtain ⟨rfl, h2⟩ := h
      have ht := ih t' b b' (fun hc => ha (List.mem_cons_of_mem _ hc))
        (fun hc => ha' (List.mem_cons_of_mem _ hc)) h2
      exact ⟨by rw [ht.1], ht.2⟩

/-- A canonical name decomposes uniquely into slash-free components. -/
theorem slash_decomp_unique (a b a' b' : String)
    (ha : '/' ∉ a.data) (ha' : '/' ∉ a'.data)
    (h : a ++ "/" ++ b = a' ++ "/" ++ b') : a = a' ∧ b = b' := by
  have hd := congrArg String.data h
  rw [data_append_slash, data_append_slash] at hd
  obtain ⟨h1, h2⟩ := append_sep_inj '/' a.data a'.data b.data b'.data
    ha ha' hd
  constructor
  · calc a = String.mk a.data := rfl
      _ = String.mk a'.data := by rw [h1]
      _ = a' := rfl
  · calc b = String.mk b.data := rfl
      _ = String.mk b'.data := by rw [h2]
      _ = b' := rfl


/-- `StepOK` is reflexive. -/
theorem stepOK_refl (w : World) : StepOK w w := by
  refine ⟨fun a b h => h, fun k h => h, fun a b h => ?_,
    fun k h => Or.inl h⟩
  by_cases hr : (lookupA (get_state w) (a ++ "/" ++ b)).isSome
  · exact Or.inl hr
  · exact Or.inr ⟨h, hr⟩

/-- `StepOK` composes along sequenced steps. -/
theorem stepOK_trans {w w1 w2 : World} (h1 : StepOK w w1)
    (h2 : StepOK w1 w2) : StepOK w w2 := by
  obtain ⟨m1, s1, v1, r1⟩ := h1
  obtain ⟨m2, s2, v2, r2⟩ := h2
  refine ⟨fun a b h => m2 a b (m1 a b h), fun k h => s2 k (s1 k h),
    fun a b h => ?_, fun k h => ?_⟩
  · rcases v2 a b h with hrec | ⟨hdir1, hnrec1⟩
    · exact Or.inl hrec
    · rcases v1 a b hdir1 with hrec1 | ⟨hdir0, hnrec0⟩
      · exact absurd hrec1 hnrec1
      · exact Or.inr ⟨hdir0, hnrec0⟩
  · rcases r2 k h with hrec1 | ⟨a, b, ha, hb, rfl, hdir2⟩
    · rcases r1 k hrec1 with hrec0 | ⟨a, b, ha, hb, rfl, hdir1⟩
      · exact Or.inl hrec0
      · exact Or.inr ⟨a, b, ha, hb, rfl, m2 a b hdir1⟩
    · exact Or.inr ⟨a, b, ha, hb, rfl, hdir2⟩

/-- Out of fuel, `install_addon` raises before doing anything. -/
theorem install_addon_zero (U : Univ) (w : World) (n : String) :
    install_addon U 0 w n = (w, .error .fuelOut) := rfl

/-- Every successful `install_addon` (and dependency-loop) run is a
`StepOK` step: proved by induction on the recursion fuel. -/
theorem install_stepOK (U : Univ) : ∀ fuel : Nat,
    (∀ (w : World) (n : String) (w' : World) (ret : List String),
      install_addon U fuel w n = (w', .ok ret) → StepOK w w') ∧
    (∀ (ds : List String) (w w' : World) (xs : List (List String)),
      runList (install_addon U fuel) w ds = (w', .ok xs) →
        StepOK w w') := by
  intro fuel
  induction fuel with
  | zero =>
    constructor
    · intro w n w' ret h
      rw [install_addon_zero] at h
      simp at h
    · intro ds
      cases ds with
      | nil =>
        intro w w' xs h
        simp only [runList, Prod.mk.injEq] at h
        obtain ⟨rfl, _⟩ := h
        exact stepOK_refl w
      | cons d ds =>
        intro w w' xs h
        simp only [runList, install_addon_zero] at h
        simp at h
  | succ fuel ih =>
    have Pnext : ∀ (w : World) (n : String) (w' : World)
        (ret : List String),
        install_addon U (fuel + 1) w n = (w', .ok ret) → StepOK w w' := by
      intro w n w' ret h
      rw [install_addon_succ] at h
      cases hp : _parse_name n with
      | none => rw [hp] at h; simp at h
      | some q =>
        obtain ⟨url, u, r, name⟩ := q
        rw [hp] at h
        simp only at h
        obtain ⟨hufree, hrfree, hname⟩ :=
          parse_name_slashfree n url u r name hp
        cases hs : syncRepo U (ensurePath w u r) u r name url with
        | mk w2 res =>
          rw [hs] at h
          cases res with
          | error e => simp at h
          | ok current =>
            simp only at h
            obtain ⟨hs_state, hs_dl, hs_dirs⟩ :=
              syncRepo_shape U _ u r name url w2 _ hs
            cases hf : fetchRemote U w2 u r name with
            | mk w3 res2 =>
              rw [hf] at h
              cases res2 with
              | error e => simp at h
              | ok u0 =>
                obtain ⟨⟩ := u0
                simp only at h
                obtain ⟨hf_dirs, hf_state⟩ :=
                  fetchRemote_shape U w2 u r name w3 _ hf
                cases hl : runList (install_addon U fuel) w3
                    (depsOf w3 u r) with
                | mk w4 res3 =>
                  rw [hl] at h
                  cases res3 with
                  | error e => simp at h
                  | ok rets =>
                    simp only [Prod.mk.injEq] at h
                    obtain ⟨hw', _⟩ := h
                    subst hw'
                    obtain ⟨m34, s34, v34, r34⟩ := ih.2 _ w3 w4 rets hl
                    have hdir02 : ∀ a b : String,
                        (lookupDir w2 a b).isSome ↔
                        ((a, b) = (u, r) ∨ (lookupDir w a b).isSome) := by
                      intro a b
                      rw [hs_dirs]
                      exact ensurePath_dir w u r a b
                    have hst02 : w2.state = w.state := by
                      rw [hs_state, ensurePath_state]
                    have hdir03 : ∀ a b : String,
                        (lookupDir w3 a b).isSome ↔
                        ((a, b) = (u, r) ∨ (lookupDir w a b).isSome) := by
                      intro a b
                      rw [hf_dirs]
                      exact hdir02 a b
                    have hst03 : ∀ k, (lookupA w3.state k).isSome =
                        (lookupA w.state k).isSome := by
                      intro k
                      rw [hf_state, hst02]
                    have hstW : ∀ k,
                        (lookupA (finalizeState w4 name current
                          (depsOf w3 u r)).state k).isSome ↔
                        (k = name ∨ (lookupA w4.state k).isSome) :=
                      finalize_state_keys w4 name current (depsOf w3 u r)
                    refine ⟨?_, ?_, ?_, ?_⟩
                    · intro a b h0
                      have h3 : (lookupDir w3 a b).isSome :=
                        (hdir03 a b).mpr (Or.inr h0)
                      exact m34 a b h3
                    · intro k h0
                      have h3 : (lookupA w3.state k).isSome := by
                        rw [hst03]
                        exact h0
                      have h4 := s34 k h3
                      exact (hstW k).mpr (Or.inr h4)
                    · intro a b hdw
                      have hd4 : (lookupDir w4 a b).isSome := hdw
                      rcases v34 a b hd4 with hrec4 | ⟨hd3, hn3⟩
                      · exact Or.inl ((hstW _).mpr (Or.inr hrec4))
                      · rcases (hdir03 a b).mp hd3 with heq | hd0
                        · injection heq with h1 h2
                          subst h1; subst h2
                          left
                          apply (hstW _).mpr
                          left
                          exact hname.symm
                        · right
                          refine ⟨hd0, ?_⟩
                          intro hrec0
                          apply hn3
                          rw [show (lookupA (get_state w3)
                            (a ++ "/" ++ b)).isSome =
                            (lookupA w.state (a ++ "/" ++ b)).isSome from
                            hst03 _]
                          exact hrec0
                    · intro k hrw
                      rcases (hstW k).mp hrw with rfl | hrec4
                      · right
                        refine ⟨u, r, hufree, hrfree, hname, ?_⟩
                        have hd3 : (lookupDir w3 u r).isSome :=
                          (hdir03 u r).mpr (Or.inl rfl)
                        exact m34 u r hd3
                      · rcases r34 k hrec4 with hrec3 | ⟨a, b, ha, hb,
                          rfl, hd4⟩
                        · left
                          rw [show (lookupA (get_state w) k).isSome =
                            (lookupA w3.state k).isSome from
                            (hst03 k).symm]
                          exact hrec3
                        · exact Or.inr ⟨a, b, ha, hb, rfl, hd4⟩
    refine ⟨Pnext, ?_⟩
    intro ds
    induction ds with
    | nil =>
      intro w w' xs h
      simp only [runList, Prod.mk.injEq] at h
      obtain ⟨rfl, _⟩ := h
      exact stepOK_refl w
    | cons d ds ihds =>
      intro w w' xs h
      simp only [runList] at h
      cases hf : install_addon U (fuel + 1) w d with
      | mk w1 res =>
        rw [hf] at h
        cases res with
        | error e => simp at h
        | ok x =>
          simp only at h
          cases hr : runList (install_addon U (fuel + 1)) w1 ds with
          | mk w2 res2 =>
            rw [hr] at h
            cases res2 with
            | error e => simp at h
            | ok xs2 =>
              simp only [Prod.mk.injEq] at h
              obtain ⟨rfl, _⟩ := h
              exact stepOK_trans (Pnext w d w1 x hf) (ihds w1 w2 xs2 hr)


/-- A `StepOK` step preserves the State Store invariant. -/
theorem stepOK_inv {w w' : World} (h : StepOK w w') (hinv : Inv w) :
    Inv w' := by
  obtain ⟨m, s, v, rr⟩ := h
  intro a b ha hb
  constructor
  · intro hdir
    rcases v a b hdir with hrec | ⟨hd0, hn0⟩
    · exact hrec
    · exact absurd ((hinv a b ha hb).mp hd0) hn0
  · intro hrec
    rcases rr (a ++ "/" ++ b) hrec with hrec0 | ⟨p, q, hp, hq, heq, hd'⟩
    · exact m a b ((hinv a b ha hb).mpr hrec0)
    · obtain ⟨h1, h2⟩ := slash_decomp_unique a b p q ha hp heq
      subst h1; subst h2
      exact hd'

/-- A slash-free pair matches a parsed canonical name iff it is the
parsed `(owner, repo)` pair. -/
theorem keymatch_of_parse (u r name : String) (hufree : '/' ∉ u.data)
    (hname : name = u ++ "/" ++ r) :
    ∀ a b : String, '/' ∉ a.data → '/' ∉ b.data →
    (a ++ "/" ++ b = name ↔ (a, b) = (u, r)) := by
  intro a b ha hb
  constructor
  · intro heq
    rw [hname] at heq
    obtain ⟨h1, h2⟩ := slash_decomp_unique a b u r ha hufree heq
    rw [h1, h2]
  · intro heq
    injection heq with h1 h2
    subst h1; subst h2
    exact hname.symm

set_option maxHeartbeats 1600000 in
/-- A successful `remove_addon` preserves the invariant: it deletes the
directory and the record of the same canonical name. -/
theorem remove_addon_inv (w : World) (n0 : String) (w' : World)
    (h : remove_addon w n0 = (w', .ok ())) (hinv : Inv w) : Inv w' := by
  unfold remove_addon at h
  cases hp : _parse_name n0 with
  | none => rw [hp] at h; simp at h
  | some q =>
    obtain ⟨url, u, r, name⟩ := q
    rw [hp] at h
    simp only at h
    obtain ⟨hufree, hrfree, hname⟩ := parse_name_slashfree n0 url u r name hp
    cases hd : lookupDir w u r with
    | none => rw [hd] at h; simp at h
    | some d =>
      rw [hd] at h
      simp only at h
      have hkeymatch := keymatch_of_parse u r name hufree hname
      have hfinish : ∀ w2 : World,
          (match lookupA (get_state w2) name with
            | none => (w2, Except.error (Err.keyError name))
            | some _ =>
              (dump_state w2 (delAssoc (get_state w2) name),
                Except.ok ())) = (w', Except.ok ()) →
          w2.state = w.state →
          w2.repoDirs = delAssoc w.repoDirs (u, r) → Inv w' := by
        intro w2 hh hstate hdirs
        cases hrec : lookupA (get_state w2) name with
        | none => rw [hrec] at hh; simp at hh
        | some rec0 =>
          rw [hrec] at hh
          simp only [Prod.mk.injEq] at hh
          obtain ⟨hw', _⟩ := hh
          subst hw'
          intro a b ha hb
          by_cases heq : (a, b) = (u, r)
          · injection heq with h1 h2
            subst h1; subst h2
            constructor
            · intro hdw
              simp only [lookupDir, dump_state, hdirs] at hdw
              rw [lookupA_delAssoc_self] at hdw
              simp at hdw
            · intro hrw
              simp only [get_state, dump_state, hstate] at hrw
              rw [show a ++ "/" ++ b = name from
                (hkeymatch a b ha hb).mpr rfl] at hrw
              rw [lookupA_delAssoc_self] at hrw
              simp at hrw
          · have hkne : a ++ "/" ++ b ≠ name := by
              intro hc
              exact heq ((hkeymatch a b ha hb).mp hc)
            constructor
            · intro hdw
              simp only [lookupDir, dump_state, hdirs] at hdw
              rw [lookupA_delAssoc_ne _ _ _ heq] at hdw
              have := (hinv a b ha hb).mp hdw
              simp only [get_state, dump_state, hstate]
              rw [lookupA_delAssoc_ne _ _ _ hkne]
              exact this
            · intro hrw
              simp only [get_state, dump_state, hstate] at hrw
              rw [lookupA_delAssoc_ne _ _ _ hkne] at hrw
              have := (hinv a b ha hb).mpr hrw
              simp only [lookupDir, dump_state, hdirs]
              rw [lookupA_delAssoc_ne _ _ _ heq]
              exact this
      by_cases hcond : u ∈ w.ownerDirs ∧
          listdirOwner { w with
            repoDirs := delAssoc w.repoDirs (u, r) } u = []
      · rw [if_pos hcond] at h
        exact hfinish _ h rfl rfl
      · rw [if_neg hcond] at h
        exact hfinish _ h rfl rfl

set_option maxHeartbeats 1600000 in
/-- The removal loop preserves the invariant. -/
theorem removeList_inv : ∀ (as : List String) (w w' : World),
    removeList w as = (w', .ok ()) → Inv w → Inv w' := by
  intro as
  induction as with
  | nil =>
    intro w w' h hinv
    simp only [removeList, Prod.mk.injEq] at h
    obtain ⟨rfl, _⟩ := h
    exact hinv
  | cons a as ih =>
    intro w w' h hinv
    simp only [removeList] at h
    cases hr : remove_addon w a with
    | mk w1 res =>
      rw [hr] at h
      cases res with
      | error e => simp at h
      | ok u0 =>
        obtain ⟨⟩ := u0
        exact ih w1 w' h (remove_addon_inv w a w1 hr hinv)

set_option maxHeartbeats 1000000 in
/-- C4, amended: every run of `install_addon`, `install_addons`,
`remove_addon`, or `remove_addons` that completes without raising
preserves the State Store invariant — a canonical name `owner/repo` with
slash-free components is a key of the persisted state iff the directory
`<installRoot>/<owner>/<repo>` exists — provided it held before the call.
(An errored run, e.g. a failed clone, can break it: `c4_counterexample`.) -/
theorem c4_invariant_preserved (U : Univ) (fuel : Nat) (w : World) :
    (∀ (n : String) (w' : World) (ret : List String),
      install_addon U fuel w n = (w', .ok ret) → Inv w → Inv w') ∧
    (∀ (s : String) (re : Bool) (w' : World) (ret : List String),
      install_addons U fuel w s re = (w', .ok ret) → Inv w → Inv w') ∧
    (∀ (n : String) (w' : World),
      remove_addon w n = (w', .ok ()) → Inv w → Inv w') ∧
    (∀ (s : Option String) (rd : Bool) (confirm : String) (w' : World),
      remove_addons w s rd confirm = (w', .ok ()) → Inv w → Inv w') := by
  refine ⟨?_, ?_, ?_, ?_⟩
  · intro n w' ret h hinv
    exact stepOK_inv ((install_stepOK U fuel).1 w n w' ret h) hinv
  · intro s re w' ret h hinv
    unfold install_addons installList at h
    cases hl : runList (install_addon U fuel) w (commaSplit s) with
    | mk w1 res =>
      rw [hl] at h
      cases res with
      | error e => simp at h
      | ok ls =>
        simp only [Prod.mk.injEq] at h
        obtain ⟨rfl, _⟩ := h
        exact stepOK_inv ((install_stepOK U fuel).2 _ w w1 ls hl) hinv
  · intro n w' h hinv
    exact remove_addon_inv w n w' h hinv
  · intro s rd confirm w' h hinv
    unfold remove_addons at h
    by_cases hstr : resolveString (get_state w) s = ""
    · rw [if_pos hstr] at h
      simp only [Prod.mk.injEq] at h
      obtain ⟨rfl, _⟩ := h
      exact hinv
    · rw [if_neg hstr] at h
      simp only at h
      cases hcd : (if rd then collectDependents (get_state w)
          (commaSplit (resolveString (get_state w) s))
        else Except.ok []) with
      | error e => rw [hcd] at h; simp at h
      | ok deps =>
        rw [hcd] at h
        simp only at h
        by_cases hc : confirm = "y" ∨ confirm = "Y" ∨ confirm = "yes"
        · rw [if_pos hc] at h
          exact removeList_inv _ w w' h hinv
        · rw [if_neg hc] at h
          simp only [Prod.mk.injEq] at h
          obtain ⟨rfl, _⟩ := h
          exact hinv

/-- C4, instantiated: the empty world satisfies the invariant, and it
still holds after the successful dependency-chain install of `m/n` and
after a confirmed `remove_addons` of everything in `worldXY`. -/
theorem c4_invariant_preserved_witness :
    Inv ((install_addon univDeps 2 {} "m/n").1) ∧
    Inv ((remove_addons worldXY none false "y").1) := by
  have hinv0 : Inv ({} : World) := by
    intro u r _ _
    simp [lookupDir, get_state, lookupA]
  have hinvXY : Inv worldXY := by
    intro u r hu hr
    constructor
    · intro hd
      by_cases h1 : (u, r) = ("a", "x")
      · injection h1 with e1 e2; subst e1; subst e2; decide
      · by_cases h2 : (u, r) = ("b", "y")
        · injection h2 with e1 e2; subst e1; subst e2; decide
        · exfalso
          simp only [lookupDir, worldXY, lookupA] at hd
          rw [if_neg (fun hc => h1 hc.symm),
            if_neg (fun hc => h2 hc.symm)] at hd
          simp at hd
    · intro hrec
      by_cases h1 : u ++ "/" ++ r = "a/x"
      · obtain ⟨e1, e2⟩ := slash_decomp_unique u r "a" "x" hu
          (by decide) h1
        subst e1; subst e2; decide
      · by_cases h2 : u ++ "/" ++ r = "b/y"
        · obtain ⟨e1, e2⟩ := slash_decomp_unique u r "b" "y" hu
            (by decide) h2
          subst e1; subst e2; decide
        · exfalso
          simp only [get_state, worldXY, stateXY, lookupA] at hrec
          rw [if_neg (fun hc => h1 hc.symm),
            if_neg (fun hc => h2 hc.symm)] at hrec
          simp at hrec
  constructor
  · exact (c4_invariant_preserved univDeps 2 {}).1 "m/n"
      ((install_addon univDeps 2 {} "m/n").1) ["m/n", "a/b"]
      (by decide) hinv0
  · exact (c4_invariant_preserved univDeps 0 worldXY).2.2.2 none false "y"
      ((remove_addons worldXY none false "y").1) (by decide) hinvXY

end Benchbot
